import Mathlib

/-!
Shallow embedding of the pngsecret steganography core (src/main.rs).

Bytes and samples are modelled as `Nat` (the u8 range `< 256` appears as an
explicit hypothesis where it matters).  A raster buffer is its flat list of
channel samples in raster-scan, channel-major order (R,G,B,A,R,G,B,A,...),
of length width * height * 4.  Fallible operations return
`Except ReaderError`.
-/

/-- Error value returned by `PngSecretReader::read_image` when the sample
stream is exhausted before a zero byte is assembled. -/
structure ReaderError where

/-- Helper for `byte_to_8bits`: the loop `bits[7-i] = x % 2; x /= 2` produces
the bits of `x` least-significant first; the source then stores them at
mirrored positions, i.e. reverses them. -/
def bitsLsbFirst : Nat → Nat → List Nat
  | 0, _ => []
  | n + 1, x => x % 2 :: bitsLsbFirst n (x / 2)

/-- Embedding of `byte_to_8bits` (src/main.rs lines 95-103): split one byte
into its 8 bits, most-significant first, each bit still held in a `u8`. -/
def byte_to_8bits (byte : Nat) : List Nat :=
  (bitsLsbFirst 8 byte).reverse

/-- Embedding of `NaiveEncoder::encode` (src/main.rs lines 221-226): the
stored text after encoding is the message with one zero byte appended. -/
def NaiveEncoder.encode (seq : List Nat) : List Nat :=
  seq ++ [0]

/-- Embedding of `NaiveEncoder::get_text` (src/main.rs lines 227-229):
returns a copy of the stored text. -/
def NaiveEncoder.get_text (text : List Nat) : List Nat :=
  text

/-- Embedding of `NaiveDecoder::decode` (src/main.rs lines 210-214): the
pass-through decoder. -/
def NaiveDecoder.decode (seq : List Nat) : List Nat :=
  seq

/-- The bit source `text.iter().flat_map(byte_to_8bits)` built inside
`write_image` (src/main.rs line 132), fully materialised. -/
def getBitstream : List Nat → List Nat
  | [] => []
  | b :: rest => byte_to_8bits b ++ getBitstream rest

/-- The sample loop of `write_image` (src/main.rs lines 133-139): for each
sample, if the bit source still yields a bit `t`, replace the sample `s` by
`s - s % 2 + t`; once the bits are exhausted, break, leaving the remaining
samples unmodified. -/
def writeSamples : List Nat → List Nat → List Nat
  | buffer, [] => buffer
  | [], _ :: _ => []
  | s :: buffer, t :: bits => (s - s % 2 + t) :: writeSamples buffer bits

/-- Embedding of the buffer transformation of `PngSecretWriter::write_image`
(src/main.rs lines 126-141): overwrite the LSB of each channel sample with
the successive bits of the stored text.  File persistence is out of scope. -/
def write_image (buffer text : List Nat) : List Nat :=
  writeSamples buffer (getBitstream text)

/-- Embedding of the capacity check of `write_image` (src/main.rs lines
128-131): the warning fires iff the pixel count `width * height` is smaller
than the byte length of the stored text.  It only prints; the write
proceeds regardless. -/
def capacity_warning (width height : Nat) (text : List Nat) : Bool :=
  decide (width * height < text.length)

/-- The loop of `PngSecretReader::read_image` (src/main.rs lines 169-187):
walk the samples, accumulating `sum = sum * 2 + sample % 2`; every 8 samples
the accumulator holds one byte: a zero byte terminates with the message so
far (passed through `NaiveDecoder.decode`), otherwise it is appended and the
loop continues; exhaustion yields `ReaderError`. -/
def readLoop : List Nat → List Nat → Nat → Nat → Except ReaderError (List Nat)
  | [], _, _, _ => Except.error ⟨⟩
  | i :: rest, message, count, sum =>
    let sum2 := sum * 2 + i % 2
    let count2 := count + 1
    if count2 = 8 then
      if sum2 = 0 then Except.ok (NaiveDecoder.decode message)
      else readLoop rest (message ++ [sum2]) 0 0
    else readLoop rest message count2 sum2

/-- Embedding of `PngSecretReader::read_image` (src/main.rs lines 169-187). -/
def read_image (buffer : List Nat) : Except ReaderError (List Nat) :=
  readLoop buffer [] 0 0

/-- MSB-first decomposition of a byte, written directly from the spec:
bit `i` of the output is `b / 2 ^ (7 - i) % 2`.  Used to state that
`byte_to_8bits` is the most-significant-bit-first decomposition. -/
def msbDecomp (b : Nat) : List Nat :=
  (List.range 8).map (fun i => b / 2 ^ (7 - i) % 2)

/-- Reassembly of one byte from 8 bit values, MSB first, as the spec words
it: each new bit shifts the accumulator left and adds the bit. -/
def assembleByte (bits : List Nat) : Nat :=
  bits.foldl (fun acc b => acc * 2 + b) 0

/-- Specification-level reader, written from the spec's words: group every 8
consecutive samples, reassemble their LSBs MSB-first into a byte; a zero
byte terminates successfully with the bytes assembled before it, any other
byte is appended; exhaustion before a zero byte is an error.  Compared
against `read_image` for the refinement claim. -/
def specRead : List Nat → Except ReaderError (List Nat)
  | s1 :: s2 :: s3 :: s4 :: s5 :: s6 :: s7 :: s8 :: rest =>
    let byte := assembleByte ([s1, s2, s3, s4, s5, s6, s7, s8].map (fun s => s % 2))
    if byte = 0 then Except.ok []
    else
      match specRead rest with
      | Except.ok r => Except.ok (byte :: r)
      | Except.error e => Except.error e
  | _ => Except.error ⟨⟩

-- ### Basic lemmas

lemma byte_to_8bits_eq_msbDecomp (b : Nat) : byte_to_8bits b = msbDecomp b := by
  simp only [byte_to_8bits, bitsLsbFirst, msbDecomp, List.range_succ, List.map_append,
    List.map_cons, List.map_nil, List.reverse_cons, List.reverse_nil]
  norm_num [Nat.div_div_eq_div_mul]

lemma byte_to_8bits_length (b : Nat) : (byte_to_8bits b).length = 8 := by
  simp [byte_to_8bits, bitsLsbFirst]

lemma byte_to_8bits_zero : byte_to_8bits 0 = [0, 0, 0, 0, 0, 0, 0, 0] := by
  decide

lemma mem_bitsLsbFirst_le_one {n x t : Nat} (h : t ∈ bitsLsbFirst n x) : t ≤ 1 := by
  induction n generalizing x with
  | zero => simp [bitsLsbFirst] at h
  | succ n ih =>
    simp only [bitsLsbFirst, List.mem_cons] at h
    rcases h with h | h
    · omega
    · exact ih h

lemma mem_byte_to_8bits_le_one {b t : Nat} (h : t ∈ byte_to_8bits b) : t ≤ 1 := by
  rw [byte_to_8bits, List.mem_reverse] at h
  exact mem_bitsLsbFirst_le_one h

lemma getBitstream_append (xs ys : List Nat) :
    getBitstream (xs ++ ys) = getBitstream xs ++ getBitstream ys := by
  induction xs with
  | nil => simp [getBitstream]
  | cons b xs ih => simp [getBitstream, ih]

lemma getBitstream_length (text : List Nat) :
    (getBitstream text).length = 8 * text.length := by
  induction text with
  | nil => simp [getBitstream]
  | cons b rest ih =>
    simp [getBitstream, ih, byte_to_8bits_length]
    ring

lemma writeSamples_nil_bits (buffer : List Nat) : writeSamples buffer [] = buffer := by
  cases buffer <;> rfl

/-- The updated sample carries the written bit in its LSB and keeps the upper
bits: arithmetic core of the writer/reader agreement. -/
lemma update_mod_two (s t : Nat) (ht : t ≤ 1) : (s - s % 2 + t) % 2 = t := by
  omega

lemma update_div_two (s t : Nat) (ht : t ≤ 1) : (s - s % 2 + t) / 2 = s / 2 := by
  omega


-- ### Reader refinement: read_image equals the spec-level reader

lemma readLoop_eight (s1 s2 s3 s4 s5 s6 s7 s8 : Nat) (rest message : List Nat) :
    readLoop (s1 :: s2 :: s3 :: s4 :: s5 :: s6 :: s7 :: s8 :: rest) message 0 0 =
      if assembleByte ([s1, s2, s3, s4, s5, s6, s7, s8].map (fun s => s % 2)) = 0 then
        Except.ok message
      else
        readLoop rest
          (message ++ [assembleByte ([s1, s2, s3, s4, s5, s6, s7, s8].map (fun s => s % 2))])
          0 0 := by
  simp [readLoop, NaiveDecoder.decode, assembleByte]

lemma readLoop_specRead (n : Nat) :
    ∀ buffer : List Nat, buffer.length ≤ n → ∀ message : List Nat,
      readLoop buffer message 0 0 =
        match specRead buffer with
        | Except.ok r => Except.ok (message ++ r)
        | Except.error e => Except.error e := by
  induction n with
  | zero =>
    intro buffer hlen message
    rcases buffer with _ | ⟨x, buffer⟩
    · simp [readLoop, specRead]
    · simp at hlen
  | succ n ih =>
    intro buffer hlen message
    rcases buffer with _ | ⟨s1, buffer⟩
    · simp [readLoop, specRead]
    rcases buffer with _ | ⟨s2, buffer⟩
    · simp [readLoop, specRead]
    rcases buffer with _ | ⟨s3, buffer⟩
    · simp [readLoop, specRead]
    rcases buffer with _ | ⟨s4, buffer⟩
    · simp [readLoop, specRead]
    rcases buffer with _ | ⟨s5, buffer⟩
    · simp [readLoop, specRead]
    rcases buffer with _ | ⟨s6, buffer⟩
    · simp [readLoop, specRead]
    rcases buffer with _ | ⟨s7, buffer⟩
    · simp [readLoop, specRead]
    rcases buffer with _ | ⟨s8, buffer⟩
    · simp [readLoop, specRead]
    have hrest : buffer.length ≤ n := by
      simp at hlen
      omega
    rw [readLoop_eight, specRead]
    by_cases hz : assembleByte ([s1, s2, s3, s4, s5, s6, s7, s8].map (fun s => s % 2)) = 0
    · simp only [hz, if_pos rfl]
      simp
    · simp only [if_neg hz]
      rw [ih buffer hrest]
      rcases hspec : specRead buffer with r | e <;> simp

lemma read_image_eq_specRead (buffer : List Nat) : read_image buffer = specRead buffer := by
  have h := readLoop_specRead buffer.length buffer le_rfl []
  rw [read_image, h]
  rcases hspec : specRead buffer with r | e <;> simp

lemma exists_cons_eight (l : List Nat) (h : 8 ≤ l.length) :
    ∃ a1 a2 a3 a4 a5 a6 a7 a8 t,
      l = a1 :: a2 :: a3 :: a4 :: a5 :: a6 :: a7 :: a8 :: t := by
  rcases l with _ | ⟨a1, l⟩
  · simp at h
  rcases l with _ | ⟨a2, l⟩
  · simp at h
  rcases l with _ | ⟨a3, l⟩
  · simp at h
  rcases l with _ | ⟨a4, l⟩
  · simp at h
  rcases l with _ | ⟨a5, l⟩
  · simp at h
  rcases l with _ | ⟨a6, l⟩
  · simp at h
  rcases l with _ | ⟨a7, l⟩
  · simp at h
  rcases l with _ | ⟨a8, l⟩
  · simp at h
  exact ⟨a1, a2, a3, a4, a5, a6, a7, a8, l, rfl⟩

lemma byte_to_8bits_explicit (b : Nat) :
    byte_to_8bits b = [b / 128 % 2, b / 64 % 2, b / 32 % 2, b / 16 % 2,
      b / 8 % 2, b / 4 % 2, b / 2 % 2, b % 2] := by
  simp only [byte_to_8bits, bitsLsbFirst, List.reverse_cons, List.reverse_nil,
    List.nil_append, List.cons_append, Nat.div_div_eq_div_mul]

lemma assembleByte_byte_to_8bits (b : Nat) :
    assembleByte (byte_to_8bits b) = b % 256 := by
  rw [byte_to_8bits_explicit]
  simp only [assembleByte, List.foldl_cons, List.foldl_nil]
  omega

lemma specRead_writeSamples (m : List Nat) :
    ∀ buffer : List Nat, (∀ b ∈ m, b < 256) →
      8 * (m.length + 1) ≤ buffer.length →
      specRead (writeSamples buffer (getBitstream (m ++ [0]))) =
        Except.ok (m.takeWhile (fun b => b ≠ 0)) := by
  induction m with
  | nil =>
    intro buffer _ hcap
    simp only [List.length_nil, Nat.zero_add, Nat.mul_one, List.nil_append] at hcap ⊢
    obtain ⟨a1, a2, a3, a4, a5, a6, a7, a8, t, rfl⟩ := exists_cons_eight buffer hcap
    have hbits : getBitstream [0] = [0, 0, 0, 0, 0, 0, 0, 0] := by
      simp [getBitstream, byte_to_8bits_zero]
    rw [hbits]
    simp only [writeSamples]
    have h0 : ∀ a : Nat, (a - a % 2) % 2 = 0 := fun a => by omega
    simp [specRead, assembleByte, h0]
  | cons b m ih =>
    intro buffer hb hcap
    have h8 : 8 ≤ buffer.length := by
      simp only [List.length_cons] at hcap
      omega
    obtain ⟨a1, a2, a3, a4, a5, a6, a7, a8, t, rfl⟩ := exists_cons_eight buffer h8
    have hbits : getBitstream ((b :: m) ++ [0]) =
        byte_to_8bits b ++ getBitstream (m ++ [0]) := by
      simp [getBitstream]
    rw [hbits, byte_to_8bits_explicit]
    simp only [List.cons_append, List.nil_append, writeSamples]
    have hbyte :
        assembleByte
          ([a1 - a1 % 2 + b / 128 % 2, a2 - a2 % 2 + b / 64 % 2, a3 - a3 % 2 + b / 32 % 2,
            a4 - a4 % 2 + b / 16 % 2, a5 - a5 % 2 + b / 8 % 2, a6 - a6 % 2 + b / 4 % 2,
            a7 - a7 % 2 + b / 2 % 2, a8 - a8 % 2 + b % 2].map (fun s => s % 2)) = b % 256 := by
      simp only [assembleByte, List.map_cons, List.map_nil, List.foldl_cons, List.foldl_nil]
      rw [update_mod_two a1 (b / 128 % 2) (by omega), update_mod_two a2 (b / 64 % 2) (by omega),
        update_mod_two a3 (b / 32 % 2) (by omega), update_mod_two a4 (b / 16 % 2) (by omega),
        update_mod_two a5 (b / 8 % 2) (by omega), update_mod_two a6 (b / 4 % 2) (by omega),
        update_mod_two a7 (b / 2 % 2) (by omega), update_mod_two a8 (b % 2) (by omega)]
      omega
    have hblt : b < 256 := hb b (List.mem_cons_self b m)
    have hbmod : b % 256 = b := Nat.mod_eq_of_lt hblt
    rw [specRead, hbyte, hbmod]
    by_cases hz : b = 0
    · rw [if_pos hz]
      simp [hz]
    · rw [if_neg hz]
      have hcap2 : 8 * (m.length + 1) ≤ t.length := by
        simp only [List.length_cons] at hcap
        omega
      have hb2 : ∀ x ∈ m, x < 256 := fun x hx => hb x (List.mem_cons_of_mem b hx)
      simp only [List.append_eq, List.nil_append]
      rw [ih t hb2 hcap2]
      simp [hz]

-- ### takeWhile bridges for the round-trip results

lemma takeWhile_ne_zero_eq_self {m : List Nat} (h : ∀ b ∈ m, b ≠ 0) :
    m.takeWhile (fun b => b ≠ 0) = m := by
  induction m with
  | nil => rfl
  | cons b m ih =>
    have hb : b ≠ 0 := h b (List.mem_cons_self b m)
    have ih2 := ih (fun x hx => h x (List.mem_cons_of_mem b hx))
    rw [List.takeWhile_cons, if_pos (decide_eq_true hb), ih2]

lemma takeWhile_ne_zero_eq_take {m : List Nat} {k : Nat}
    (hk : k < m.length) (hzero : m.getD k 0 = 0) (hbefore : ∀ j < k, m.getD j 0 ≠ 0) :
    m.takeWhile (fun b => b ≠ 0) = m.take k := by
  induction m generalizing k with
  | nil => simp at hk
  | cons b m ih =>
    cases k with
    | zero =>
      simp only [List.getD_cons_zero] at hzero
      rw [List.takeWhile_cons, hzero]
      simp
    | succ k =>
      have hb : b ≠ 0 := by
        have := hbefore 0 (Nat.succ_pos k)
        simpa using this
      have hk2 : k < m.length := by
        simp only [List.length_cons] at hk
        omega
      have hzero2 : m.getD k 0 = 0 := by
        simpa using hzero
      have hbefore2 : ∀ j < k, m.getD j 0 ≠ 0 := by
        intro j hj
        have := hbefore (j + 1) (by omega)
        simpa using this
      rw [List.takeWhile_cons, if_pos (decide_eq_true hb), ih hk2 hzero2 hbefore2,
        List.take_succ_cons]

-- ### Pointwise description of the writer

lemma writeSamples_length (buffer bits : List Nat) :
    (writeSamples buffer bits).length = buffer.length := by
  induction buffer generalizing bits with
  | nil => cases bits <;> rfl
  | cons s buffer ih =>
    cases bits with
    | nil => rfl
    | cons t bits => simp [writeSamples, ih]

lemma writeSamples_getElem? (buffer bits : List Nat) (j : Nat) :
    (writeSamples buffer bits)[j]? =
      if j < bits.length then (buffer[j]?).map (fun s => s - s % 2 + bits.getD j 0)
      else buffer[j]? := by
  induction buffer generalizing bits j with
  | nil =>
    cases bits with
    | nil => simp [writeSamples]
    | cons t bits => simp [writeSamples]
  | cons s buffer ih =>
    cases bits with
    | nil => simp [writeSamples]
    | cons t bits =>
      cases j with
      | zero => simp [writeSamples]
      | succ j => simp [writeSamples, ih]

lemma writeSamples_take (buffer bits : List Nat) :
    writeSamples buffer (bits.take buffer.length) = writeSamples buffer bits := by
  induction buffer generalizing bits with
  | nil => cases bits <;> rfl
  | cons s buffer ih =>
    cases bits with
    | nil => rfl
    | cons t bits => simp [writeSamples, List.take_succ_cons, ih]

-- ### Error case of the reader

lemma drop_eight_shift (s1 s2 s3 s4 s5 s6 s7 s8 : Nat) (t : List Nat) (k : Nat) :
    (s1 :: s2 :: s3 :: s4 :: s5 :: s6 :: s7 :: s8 :: t).drop (8 * (k + 1)) = t.drop (8 * k) := by
  rw [show 8 * (k + 1) = 8 * k + 1 + 1 + 1 + 1 + 1 + 1 + 1 + 1 by ring]
  simp only [List.drop_succ_cons]

lemma specRead_error_of_no_zero (n : Nat) :
    ∀ buffer : List Nat, buffer.length ≤ n →
      (∀ k < buffer.length / 8,
        assembleByte (((buffer.drop (8 * k)).take 8).map (fun s => s % 2)) ≠ 0) →
      specRead buffer = Except.error ⟨⟩ := by
  induction n with
  | zero =>
    intro buffer hlen _
    rcases buffer with _ | ⟨x, buffer⟩
    · simp [specRead]
    · simp at hlen
  | succ n ih =>
    intro buffer hlen h
    rcases buffer with _ | ⟨s1, buffer⟩
    · simp [specRead]
    rcases buffer with _ | ⟨s2, buffer⟩
    · simp [specRead]
    rcases buffer with _ | ⟨s3, buffer⟩
    · simp [specRead]
    rcases buffer with _ | ⟨s4, buffer⟩
    · simp [specRead]
    rcases buffer with _ | ⟨s5, buffer⟩
    · simp [specRead]
    rcases buffer with _ | ⟨s6, buffer⟩
    · simp [specRead]
    rcases buffer with _ | ⟨s7, buffer⟩
    · simp [specRead]
    rcases buffer with _ | ⟨s8, buffer⟩
    · simp [specRead]
    have hlen8 : (s1 :: s2 :: s3 :: s4 :: s5 :: s6 :: s7 :: s8 :: buffer).length =
        buffer.length + 8 := by
      simp
    have h0 := h 0 (by rw [hlen8]; omega)
    have hgrp :
        (((s1 :: s2 :: s3 :: s4 :: s5 :: s6 :: s7 :: s8 :: buffer).drop (8 * 0)).take 8) =
          [s1, s2, s3, s4, s5, s6, s7, s8] := by
      rfl
    rw [hgrp] at h0
    rw [specRead, if_neg h0]
    have hrest : specRead buffer = Except.error ⟨⟩ := by
      apply ih buffer
      · rw [hlen8] at hlen
        omega
      · intro k hk
        have hk2 : k + 1 < (s1 :: s2 :: s3 :: s4 :: s5 :: s6 :: s7 :: s8 :: buffer).length / 8 := by
          rw [hlen8]
          omega
        have := h (k + 1) hk2
        rwa [drop_eight_shift] at this
    rw [hrest]

-- ### Claim theorems

/-- C1: Round-trip.  For every byte sequence `m` containing no zero byte and
every raster buffer whose sample count is at least `8 * (len m + 1)`, reading
back (`read_image`) a buffer into which `m` was encoded
(`NaiveEncoder.encode`) and written (`write_image`) yields exactly `m`. -/
theorem roundtrip_write_read (m buffer : List Nat)
    (hnz : ∀ b ∈ m, b ≠ 0) (hbyte : ∀ b ∈ m, b < 256)
    (hcap : 8 * (m.length + 1) ≤ buffer.length) :
    read_image (write_image buffer (NaiveEncoder.encode m)) = Except.ok m := by
  rw [read_image_eq_specRead]
  simp only [write_image, NaiveEncoder.encode]
  rw [specRead_writeSamples m buffer hbyte hcap, takeWhile_ne_zero_eq_self hnz]

/-- Witness for C1 at the spec's concrete scenario: a 4x4 all-0xFF RGBA
buffer (64 samples) and the message "Hi" = [0x48, 0x69]. -/
theorem roundtrip_write_read_witness :
    (∀ b ∈ ([72, 105] : List Nat), b ≠ 0) ∧
    (∀ b ∈ ([72, 105] : List Nat), b < 256) ∧
    8 * (([72, 105] : List Nat).length + 1) ≤ (List.replicate 64 (255 : Nat)).length ∧
    read_image (write_image (List.replicate 64 (255 : Nat)) (NaiveEncoder.encode [72, 105])) =
      Except.ok [72, 105] :=
  ⟨by decide, by decide, by decide,
    roundtrip_write_read [72, 105] (List.replicate 64 255) (by decide) (by decide) (by decide)⟩

/-- C2: Bitstream construction.  For every message `m` (including the empty
one), the bit source consumed by the writer is the MSB-first decomposition of
each byte of `m` followed by exactly one all-zero sentinel byte (eight zero
bits), so its length is exactly `8 * (len m + 1)`. -/
theorem bitstream_msb_sentinel (m : List Nat) :
    getBitstream (NaiveEncoder.encode m) =
      (m.map msbDecomp).flatten ++ [0, 0, 0, 0, 0, 0, 0, 0] ∧
    (getBitstream (NaiveEncoder.encode m)).length = 8 * (m.length + 1) := by
  have hjoin : ∀ text : List Nat, getBitstream text = (text.map msbDecomp).flatten := by
    intro text
    induction text with
    | nil => rfl
    | cons b rest ih => simp [getBitstream, ih, byte_to_8bits_eq_msbDecomp]
  constructor
  · rw [NaiveEncoder.encode, getBitstream_append, hjoin m]
    have h0 : getBitstream [0] = [0, 0, 0, 0, 0, 0, 0, 0] := by decide
    rw [h0]
  · rw [getBitstream_length, NaiveEncoder.encode]
    simp

/-- C3 counterexample: a buffer of 8 samples (2 RGBA pixels) with the
one-byte message [1].  The bitstream is 16 bits, exceeding the 8 available
samples, yet `write_image` signals no error: it returns the buffer with only
the first 8 bits written (the sentinel is lost), and the source's capacity
check (pixels against text bytes) does not even fire. -/
theorem capacity_violation_cex :
    8 * (NaiveEncoder.encode [1]).length = 16 ∧
    ([0, 0, 0, 0, 0, 0, 0, 0] : List Nat).length = 8 ∧
    write_image [0, 0, 0, 0, 0, 0, 0, 0] (NaiveEncoder.encode [1]) =
      [0, 0, 0, 0, 0, 0, 0, 1] ∧
    capacity_warning 1 2 (NaiveEncoder.encode [1]) = false := by
  decide

/-- C3 amended: `write_image` never returns an error on capacity violation.
It always yields a buffer of the same length, writing only the prefix of the
bitstream that fits (silent truncation), and the only capacity check is the
non-fatal warning, which fires iff `width * height` (pixel count) is less
than the byte count of the stored text. -/
theorem write_image_no_capacity_error (buffer text : List Nat) (w h : Nat) :
    (write_image buffer text).length = buffer.length ∧
    write_image buffer text = writeSamples buffer ((getBitstream text).take buffer.length) ∧
    (capacity_warning w h text = true ↔ w * h < text.length) := by
  refine ⟨writeSamples_length buffer (getBitstream text), ?_, by simp [capacity_warning]⟩
  rw [write_image, writeSamples_take]

/-- C4: Writer sample update and frame.  While bits remain, sample `j` is
replaced by `s - s % 2 + bit j`, which sets its LSB to the bit and leaves
the upper seven bits (`s / 2`) unchanged; once the bitstream is exhausted,
every remaining sample is left completely unmodified. -/
theorem writer_lsb_update_and_frame (buffer bits : List Nat)
    (hbits : ∀ t ∈ bits, t ≤ 1) (j : Nat) :
    ((writeSamples buffer bits).length = buffer.length) ∧
    (j < bits.length →
      (writeSamples buffer bits)[j]? =
          (buffer[j]?).map (fun s => s - s % 2 + bits.getD j 0) ∧
      ((writeSamples buffer bits)[j]?).map (fun s => s / 2) =
          (buffer[j]?).map (fun s => s / 2) ∧
      ((writeSamples buffer bits)[j]?).map (fun s => s % 2) =
          (buffer[j]?).map (fun _ => bits.getD j 0)) ∧
    (bits.length ≤ j → (writeSamples buffer bits)[j]? = buffer[j]?) := by
  refine ⟨writeSamples_length buffer bits, ?_, ?_⟩
  · intro hj
    have ht : bits.getD j 0 ≤ 1 := by
      apply hbits
      rw [List.getD_eq_getElem bits 0 hj]
      exact List.getElem_mem hj
    have hup := writeSamples_getElem? buffer bits j
    rw [if_pos hj] at hup
    refine ⟨hup, ?_, ?_⟩ <;>
      · rw [hup]
        cases buffer[j]? with
        | none => rfl
        | some s =>
          have ht2 : (bits[j]?.getD 0) ≤ 1 := by simpa [List.getD] using ht
          simp [update_div_two s _ ht2, update_mod_two s _ ht2]
  · intro hj
    have hup := writeSamples_getElem? buffer bits j
    rwa [if_neg (by omega)] at hup

/-- Witness for C4 at buffer [2, 3], bitstream [1], index 1: the first sample
is updated to 3, the second lies past the bitstream and is untouched. -/
theorem writer_lsb_update_and_frame_witness :
    (∀ t ∈ ([1] : List Nat), t ≤ 1) ∧
    (((writeSamples [2, 3] [1]).length = ([2, 3] : List Nat).length) ∧
     (1 < ([1] : List Nat).length →
       (writeSamples [2, 3] [1])[1]? =
           ((([2, 3] : List Nat))[1]?).map (fun s => s - s % 2 + ([1] : List Nat).getD 1 0) ∧
       ((writeSamples [2, 3] [1])[1]?).map (fun s => s / 2) =
           ((([2, 3] : List Nat))[1]?).map (fun s => s / 2) ∧
       ((writeSamples [2, 3] [1])[1]?).map (fun s => s % 2) =
           ((([2, 3] : List Nat))[1]?).map (fun _ => ([1] : List Nat).getD 1 0)) ∧
     (([1] : List Nat).length ≤ 1 → (writeSamples [2, 3] [1])[1]? = (([2, 3] : List Nat))[1]?)) :=
  ⟨by decide, writer_lsb_update_and_frame [2, 3] [1] (by decide) 1⟩

/-- C5: Reader algorithm and sentinel exclusion.  `read_image` walks the
samples in order accumulating `acc = acc * 2 + sample % 2`, every 8 samples
forming one byte; the first assembled zero byte terminates successfully with
exactly the bytes assembled before it (the sentinel excluded), as captured
by the spec-level reader `specRead`. -/
theorem read_image_agrees_with_spec_reader (buffer : List Nat) :
    read_image buffer = specRead buffer :=
  read_image_eq_specRead buffer

/-- C6: NoEmbeddedMessage failure.  If no aligned group of 8 consecutive
sample LSBs assembles to a zero byte before the samples run out, then
`read_image` returns `ReaderError` rather than any byte sequence. -/
theorem read_image_no_sentinel (buffer : List Nat)
    (h : ∀ k < buffer.length / 8,
      assembleByte (((buffer.drop (8 * k)).take 8).map (fun s => s % 2)) ≠ 0) :
    read_image buffer = Except.error ⟨⟩ := by
  rw [read_image_eq_specRead]
  exact specRead_error_of_no_zero buffer.length buffer le_rfl h

/-- Witness for C6: nine all-one samples assemble the single complete byte
255, never zero, so reading fails. -/
theorem read_image_no_sentinel_witness :
    (∀ k < ([1, 1, 1, 1, 1, 1, 1, 1, 1] : List Nat).length / 8,
      assembleByte (((([1, 1, 1, 1, 1, 1, 1, 1, 1] : List Nat).drop (8 * k)).take 8).map
        (fun s => s % 2)) ≠ 0) ∧
    read_image [1, 1, 1, 1, 1, 1, 1, 1, 1] = Except.error ⟨⟩ :=
  ⟨by decide, read_image_no_sentinel [1, 1, 1, 1, 1, 1, 1, 1, 1] (by decide)⟩

/-- C7: UnpackFilter identity.  The default decoder returns every byte
sequence unchanged. -/
theorem naive_decoder_identity (seq : List Nat) : NaiveDecoder.decode seq = seq :=
  rfl

/-- C8: Early termination on embedded zero.  If the first zero byte of `m`
sits at position `k` and the buffer has the spec's sufficient capacity, then
decoding the freshly encoded buffer yields exactly the first `k` bytes of
`m`. -/
theorem early_termination_embedded_zero (m buffer : List Nat) (k : Nat)
    (hk : k < m.length) (hzero : m.getD k 0 = 0) (hbefore : ∀ j < k, m.getD j 0 ≠ 0)
    (hbyte : ∀ b ∈ m, b < 256) (hcap : 8 * (m.length + 1) ≤ buffer.length) :
    read_image (write_image buffer (NaiveEncoder.encode m)) = Except.ok (m.take k) := by
  rw [read_image_eq_specRead]
  simp only [write_image, NaiveEncoder.encode]
  rw [specRead_writeSamples m buffer hbyte hcap, takeWhile_ne_zero_eq_take hk hzero hbefore]

/-- Witness for C8 with message [7, 0, 9] (first zero at position 1) in a
32-sample zero buffer: the decoder returns just [7]. -/
theorem early_termination_embedded_zero_witness :
    1 < ([7, 0, 9] : List Nat).length ∧
    ([7, 0, 9] : List Nat).getD 1 0 = 0 ∧
    (∀ j < 1, ([7, 0, 9] : List Nat).getD j 0 ≠ 0) ∧
    (∀ b ∈ ([7, 0, 9] : List Nat), b < 256) ∧
    8 * (([7, 0, 9] : List Nat).length + 1) ≤ (List.replicate 32 (0 : Nat)).length ∧
    read_image (write_image (List.replicate 32 (0 : Nat)) (NaiveEncoder.encode [7, 0, 9])) =
      Except.ok (([7, 0, 9] : List Nat).take 1) :=
  ⟨by decide, by decide, by decide, by decide, by decide,
    early_termination_embedded_zero [7, 0, 9] (List.replicate 32 0) 1
      (by decide) (by decide) (by decide) (by decide) (by decide)⟩

/-- C9: Deterministic encode.  The encode-and-write transformation is a pure
function of the message and the initial buffer: two runs from the same
initial state produce identical output buffers, with no hidden randomness. -/
theorem encode_write_deterministic (m buffer : List Nat) :
    write_image buffer (NaiveEncoder.encode m) = write_image buffer (NaiveEncoder.encode m) :=
  rfl

/-- C10: Arithmetic safety of the sample update.  Every bit `t` produced by
`byte_to_8bits` is 0 or 1, and for every u8 sample `s` the update
`s - s % 2 + t` neither underflows (`s % 2 ≤ s`) nor overflows u8
arithmetic (result `< 256`), so the per-sample update cannot panic. -/
theorem sample_update_safe (s b t : Nat) (hs : s < 256) (ht : t ∈ byte_to_8bits b) :
    t ≤ 1 ∧ s % 2 ≤ s ∧ s - s % 2 + t < 256 := by
  have h1 : t ≤ 1 := mem_byte_to_8bits_le_one ht
  exact ⟨h1, Nat.mod_le s 2, by omega⟩

/-- Witness for C10 at the extreme point: sample 255 and bit 1 taken from
`byte_to_8bits 255`. -/
theorem sample_update_safe_witness :
    (255 : Nat) < 256 ∧ (1 ∈ byte_to_8bits 255) ∧
    ((1 : Nat) ≤ 1 ∧ (255 : Nat) % 2 ≤ 255 ∧ 255 - 255 % 2 + 1 < 256) :=
  ⟨by decide, by decide, sample_update_safe 255 255 1 (by decide) (by decide)⟩
